import Mathlib

/-!
Verification of the RetailIQ Hive-style partitioned warehouse layer.

This file shallowly embeds the warehouse code of `src/04_storage`:
  * the partition writer loops of `hive_style_warehouse.py`,
  * `HiveWarehouse` of `hive_query_engine.py` (`_load_metastore`,
    `show_tables`, `show_partitions`, `read_table`, `query`),
  * `HiveWarehouse` of `hive_analytics.py` (`_load_metastore`, `read_table`),
  * the embedded `HiveWarehouse` of `verify_all.py` (`_load_metastore`,
    `read_table`).

Modelling conventions:
  * dataframes are lists of rows; a row is an association list from column
    name to value (pandas column assignment `df[c] = v` becomes `setCol`,
    which overwrites in place or appends at the end, like pandas);
  * values are integers or strings (floats are carried as their literal
    text and never computed with; no claim exercises float arithmetic);
  * a data file is its partition directory path (one `key=value` segment
    per directory level, each segment an atomic list of characters)
    together with the rows stored in it; the parquet payload itself is
    modelled by the rows; `glob(pattern + "/**/*.parquet", recursive=True)`
    becomes "the pattern segments are a prefix of the file's path";
  * Python string scanning (`split`, `strip`, `zfill`, `endswith`,
    `'=' in s`) is modelled over `String.data` character lists.
-/

set_option autoImplicit false

deriving instance DecidableEq for Except

namespace RetailIQ

/-- A dataframe cell value: integer, float (kept as literal text, never
computed with), or string. Mirrors the value coercion ladder of
`HiveWarehouse.query` (int, then float, then string). -/
inductive PValue where
  | vInt : Int → PValue
  | vFloat : String → PValue
  | vStr : String → PValue
deriving DecidableEq, Repr

/-- Python `str(value)` for the values a partition column can hold. -/
def pstr : PValue → String
  | .vInt n => toString n
  | .vFloat s => s
  | .vStr s => s

/-- A dataframe row: association list from column name to value. -/
abbrev Row := List (String × PValue)

/-- A dataframe: list of rows. -/
abbrev DF := List Row

/-- First-match association-list lookup (Python `dict`/pandas column access). -/
def alookup {β : Type} (k : String) : List (String × β) → Option β
  | [] => none
  | p :: ps => if p.1 = k then some p.2 else alookup k ps

/-- pandas `df[c] = v`: overwrite the column in place if it exists,
otherwise append it at the end. Also models Python dict assignment
(insertion order is preserved, overwriting keeps the original slot). -/
def setCol (r : Row) (c : String) (v : PValue) : Row :=
  if (alookup c r).isSome then
    r.map (fun p => if p.1 = c then (p.1, v) else p)
  else r ++ [(c, v)]

/-- Python `str.zfill(w)`: left-pad with `'0'` to width `w`, keeping a
leading sign in front of the padding. -/
def zfill (w : Nat) (s : String) : String :=
  if w ≤ s.data.length then s
  else
    match s.data with
    | [] => ⟨List.replicate w '0'⟩
    | c :: rest =>
      if c = '+' ∨ c = '-' then ⟨c :: (List.replicate (w - s.data.length) '0' ++ rest)⟩
      else ⟨List.replicate (w - s.data.length) '0' ++ (c :: rest)⟩

/-- Python `col.endswith("_month")`. -/
def monthCol (c : String) : Bool := "_month".data.isSuffixOf c.data

/-- Write-time encoded value of a partition column, from the partition
loops of `hive_style_warehouse.py`: `str(value)`, zero-padded to width 2
for the `*_month` columns (`f'order_month={str(month).zfill(2)}'`). -/
def encValW (c : String) (v : PValue) : String :=
  if monthCol c then zfill 2 (pstr v) else pstr v

/-- Write-time path segment `col=value` built by `hive_style_warehouse.py`. -/
def encSegW (c : String) (v : PValue) : List Char :=
  c.data ++ '=' :: (encValW c v).data

/-- Path segment built by `hive_query_engine.py`'s pruning branch:
`value = str(value)`, then `value.zfill(2)` if the column name ends in
`_month`, then `f"{path}/{col}={value}"`. -/
def encSegE (c : String) (v : PValue) : List Char :=
  c.data ++ '=' :: (if monthCol c then zfill 2 (pstr v) else pstr v).data

/-- Path segment built by `hive_analytics.py`'s pruning branch:
`path_pattern += f"/{col}={val}"` — no month padding. -/
def encSegA (c : String) (v : PValue) : List Char :=
  c.data ++ '=' :: (pstr v).data

/-- Path-component decoding shared by the readers that reconstruct
partition columns: a component containing `=` is split once on the first
`=` (`part.split('=', 1)`); other components are ignored (`none`). -/
def decodeSeg (seg : List Char) : Option (String × String) :=
  if '=' ∈ seg then
    some (⟨seg.takeWhile (fun ch => ch ≠ '=')⟩, ⟨(seg.dropWhile (fun ch => ch ≠ '=')).tail⟩)
  else none

/-- The partition-column reattachment loop of `hive_analytics.py`'s
`read_table`: for every path component containing `=`, decode it and set
the column to the decoded raw string. -/
def decodeAttach : List (List Char) → Row → Row
  | [], r => r
  | seg :: path, r =>
    match decodeSeg seg with
    | some cv => decodeAttach path (setCol r cv.1 (.vStr cv.2))
    | none => decodeAttach path r

/-- The reattachment loop of `hive_query_engine.py`'s pruning branch:
`for col, value in partitions.items(): df[col] = value` — the caller's
literal values, in filter order. -/
def attachAll : Row → Row → Row
  | [], r => r
  | p :: F, r => attachAll F (setCol r p.1 p.2)

/-- One data file of the warehouse: the partition directory path it lives
under (relative to the table root, one encoded segment per level) and the
rows it holds. -/
structure DataFile where
  path : List (List Char)
  rows : DF
deriving DecidableEq, Repr

/-- A table's `_METADATA.json` content, restricted to the fields the
embedded operations consume: `record_count` and the `partitions` list
(entries kept as their serialized text; only count and emptiness are
read by `show_tables`). -/
structure Metadata where
  record_count : Nat
  partitions : List String
deriving DecidableEq, Repr

/-- State of a table's `_METADATA.json` sidecar on disk: absent, present
but unparseable (`json.load` raises), or present and well-formed. -/
inductive Sidecar where
  | missing
  | corrupt
  | good : Metadata → Sidecar
deriving DecidableEq, Repr

/-- One table directory under the warehouse root. -/
structure TableDir where
  name : String
  sidecar : Sidecar
  files : List DataFile
deriving DecidableEq, Repr

/-- The data files found under a table's directory (empty when the
directory does not exist — `glob` then matches nothing). -/
def tableFiles (w : List TableDir) (tn : String) : List DataFile :=
  match w.find? (fun t => t.name == tn) with
  | some t => t.files
  | none => []

/-- `HiveWarehouse._load_metastore` of `hive_query_engine.py` (and,
identically, of `hive_analytics.py`): `glob` skips tables without a
sidecar; `json.load` has no surrounding `try`, so unparseable content
raises out of the constructor. -/
def load_metastore_engine : List TableDir → Except String (List (String × Metadata))
  | [] => .ok []
  | t :: ts =>
    match t.sidecar with
    | .missing => load_metastore_engine ts
    | .corrupt => .error "json.JSONDecodeError"
    | .good m =>
      match load_metastore_engine ts with
      | .ok ms => .ok ((t.name, m) :: ms)
      | .error e => .error e

/-- `HiveWarehouse._load_metastore` of `verify_all.py`: the `json.load`
is wrapped in `try: ... except: pass`, so both missing and unparseable
sidecars are silently skipped. -/
def load_metastore_verify : List TableDir → List (String × Metadata)
  | [] => []
  | t :: ts =>
    match t.sidecar with
    | .good m => (t.name, m) :: load_metastore_verify ts
    | _ => load_metastore_verify ts

/-- Full-table branch of `hive_query_engine.py`'s `read_table`: read and
concatenate every parquet file under the table root; partition columns
are NOT reconstructed. -/
def full_read_engine (files : List DataFile) : DF :=
  files.flatMap (fun f => f.rows)

/-- `HiveWarehouse.read_table` of `hive_query_engine.py`.
`partitions=None` and `partitions={}` both take the read-all branch
(`if not partitions`). The pruning branch builds the glob pattern from
the filter items in their given order and matches every file whose
partition path extends it, then reattaches the filter columns with the
caller's literal values. -/
def read_table_engine (w : List TableDir) (ms : List (String × Metadata)) (tn : String)
    (parts? : Option Row) : Except String DF :=
  match alookup tn ms with
  | none => .error ("Table " ++ tn ++ " not found")
  | some _ =>
    let files := tableFiles w tn
    match parts? with
    | none => if files.isEmpty then .ok [] else .ok (full_read_engine files)
    | some F =>
      if F.isEmpty then
        if files.isEmpty then .ok [] else .ok (full_read_engine files)
      else
        let patSegs := F.map (fun p => encSegE p.1 p.2)
        let matched := files.filter (fun f => patSegs.isPrefixOf f.path)
        if matched.isEmpty then .ok []
        else .ok (matched.flatMap (fun f => f.rows.map (fun r => attachAll F r)))

/-- Full-table branch of `hive_analytics.py`'s `read_table`: concatenate
every file, reconstructing every partition column from the `key=value`
path components as raw strings. -/
def full_read_analytics (files : List DataFile) : DF :=
  files.flatMap (fun f => f.rows.map (fun r => decodeAttach f.path r))

/-- `HiveWarehouse.read_table` of `hive_analytics.py`. The pruning
branch builds the pattern without month padding and rebuilds partition
columns from the path (as strings) rather than from the caller's
values. -/
def read_table_analytics (w : List TableDir) (ms : List (String × Metadata)) (tn : String)
    (parts? : Option Row) : Except String DF :=
  match alookup tn ms with
  | none => .error ("Table " ++ tn ++ " not found")
  | some _ =>
    let files := tableFiles w tn
    match parts? with
    | none => if files.isEmpty then .ok [] else .ok (full_read_analytics files)
    | some F =>
      if F.isEmpty then
        if files.isEmpty then .ok [] else .ok (full_read_analytics files)
      else
        let patSegs := F.map (fun p => encSegA p.1 p.2)
        let matched := files.filter (fun f => patSegs.isPrefixOf f.path)
        if matched.isEmpty then .ok []
        else .ok (matched.flatMap (fun f => f.rows.map (fun r => decodeAttach f.path r)))

/-- Pattern built by `verify_all.py`'s embedded `read_table`: only the
five hard-coded partition columns contribute a segment; any other filter
key is ignored. `order_month` is zero-padded. -/
def verify_pattern (F : Row) : List (List Char) :=
  F.foldl (fun acc p =>
    if p.1 = "region" ∨ p.1 = "category" ∨ p.1 = "year" ∨ p.1 = "order_year" then
      acc ++ [p.1.data ++ '=' :: (pstr p.2).data]
    else if p.1 = "order_month" then
      acc ++ [p.1.data ++ '=' :: (zfill 2 (pstr p.2)).data]
    else acc) []

/-- `read_table` embedded in `verify_all.py`: no metastore existence
check at all (a total function), no partition-column reattachment. -/
def read_table_verify (w : List TableDir) (tn : String) (parts? : Option Row) : DF :=
  let files := tableFiles w tn
  match parts? with
  | none => files.flatMap (fun f => f.rows)
  | some F =>
    if F.isEmpty then files.flatMap (fun f => f.rows)
    else
      let matched := files.filter (fun f => (verify_pattern F).isPrefixOf f.path)
      matched.flatMap (fun f => f.rows)

/-- Keep-first deduplication, as pandas `drop_duplicates` does. -/
def dedupFirst {α : Type} [DecidableEq α] : List α → List α
  | [] => []
  | a :: as => a :: (dedupFirst as).filter (fun b => b ≠ a)

/-- The partition-key tuple of a row (`row[c] for c in P`). Missing
columns default to the empty string; the write loops only ever group on
columns present in the dataframe. -/
def projRow (P : List String) (r : Row) : List PValue :=
  P.map (fun c => (alookup c r).getD (.vStr ""))

/-- `df.drop(columns=P)`: remove the partition columns from a row,
keeping the remaining columns in order. -/
def stripCols (P : List String) (r : Row) : Row :=
  r.filter (fun p => decide (p.1 ∉ P))

/-- The distinct partition-key combinations of the input, in first-seen
order (`drop_duplicates`). -/
def combosOf (P : List String) (R : DF) : List (List PValue) :=
  dedupFirst (R.map (projRow P))

/-- The directory path of one partition: the columns in declared order,
zipped with the key values, each encoded as a `col=value` segment. -/
def pathOfCombo (P : List String) (vs : List PValue) : List (List Char) :=
  (P.zip vs).map (fun p => encSegW p.1 p.2)

/-- The partition write loop of `hive_style_warehouse.py` (the
`fact_sales` loop, generalized to an ordered partition column list): one
data file per distinct key combination, at the encoded path, holding the
matching rows with the partition columns dropped. No validation of the
partition values is performed. -/
def writeTable (P : List String) (R : DF) : List DataFile :=
  (combosOf P R).map (fun vs =>
    { path := pathOfCombo P vs,
      rows := (R.filter (fun r => decide (projRow P r = vs))).map (fun r => stripCols P r) })

/-- A freshly written table directory with a well-formed sidecar. -/
def mkTable (tn : String) (m : Metadata) (P : List String) (R : DF) : TableDir :=
  { name := tn, sidecar := .good m, files := writeTable P R }

/-- A `HiveWarehouse` instance after `__init__`: the on-disk table
directories plus the metastore mapping cached at open time. The two
components can drift apart — nothing re-synchronizes them. -/
structure WH where
  tables : List TableDir
  metastore : List (String × Metadata)
deriving DecidableEq, Repr

/-- `HiveWarehouse.show_tables`: one line per cached metastore entry —
name, `record_count`, and the partition count when `partitions` is
non-empty (else the "(non-partitioned)" form, modelled as `none`). Only
`self.metastore` is consulted, never the disk. -/
def show_tables (s : WH) : List (String × Nat × Option Nat) :=
  s.metastore.map (fun p =>
    (p.1, p.2.record_count,
      if p.2.partitions.isEmpty then none else some p.2.partitions.length))

/-- `os.path.relpath(pdir, table_path)` of a partition directory given by
its segments: `"."` for the table root itself, else the segments joined
with `/`. -/
def joinSlash (d : List (List Char)) : List Char :=
  if d.isEmpty then ['.'] else (d.intersperse ['/']).flatten

/-- Lexicographic order on character lists (Python string comparison used
by `sorted`). -/
def leChars : List Char → List Char → Bool
  | [], _ => true
  | _ :: _, [] => false
  | a :: as, b :: bs => if a = b then leChars as bs else decide (a < b)

/-- Ordered insertion for the sorting model. -/
def insertLe {α : Type} (le : α → α → Bool) (x : α) : List α → List α
  | [] => [x]
  | y :: ys => if le x y then x :: y :: ys else y :: insertLe le x ys

/-- Insertion sort modelling Python `sorted` (the sorted keys here are
distinct directory paths, so stability is irrelevant). -/
def sortLe {α : Type} (le : α → α → Bool) : List α → List α
  | [] => []
  | x :: xs => insertLe le x (sortLe le xs)

/-- Observable output of `HiveWarehouse.show_partitions`: the
"Table not found" early return, the "(Not partitioned)" message when no
directory holds a parquet file, or the sorted listing of
(relative path, record count) lines. -/
inductive PartsView where
  | notFound
  | notPartitioned
  | listing : List (List Char × Nat) → PartsView
deriving DecidableEq, Repr

/-- `HiveWarehouse.show_partitions` of `hive_query_engine.py`: after an
existence check against the cached metastore, walk the table directory,
collect every directory holding at least one parquet file, and report
each with the total row count of its parquet files, sorted by path. -/
def show_partitions (s : WH) (tn : String) : PartsView :=
  if (alookup tn s.metastore).isNone then .notFound
  else
    let files := tableFiles s.tables tn
    if files.isEmpty then .notPartitioned
    else
      let dirs := sortLe leChars (dedupFirst (files.map (fun f => joinSlash f.path)))
      .listing (dirs.map (fun d =>
        (d, ((files.filter (fun f => joinSlash f.path = d)).map (fun f => f.rows.length)).sum)))

/-- Python `str.split()` word scanner: accumulate a word, break on
whitespace. -/
def pySplitWsAux : List Char → List Char → List (List Char)
  | [], acc => [acc.reverse]
  | c :: cs, acc =>
    if c = ' ' ∨ c = '\t' ∨ c = '\n' ∨ c = '\r' then acc.reverse :: pySplitWsAux cs []
    else pySplitWsAux cs (c :: acc)

/-- Python `str.split()` with no argument: split on whitespace runs,
dropping empty pieces. -/
def pyWords (l : List Char) : List (List Char) :=
  (pySplitWsAux l []).filter (fun w => !w.isEmpty)

/-- Python `str.split(sep)` for a single-character separator, keeping
empty pieces (`'a=b=c'.split('=') == ['a','b','c']`, `'=x'.split('=') ==
['','x']`). -/
def splitCharAux (sep : Char) : List Char → List Char → List (List Char)
  | [], acc => [acc.reverse]
  | c :: cs, acc =>
    if c = sep then acc.reverse :: splitCharAux sep cs []
    else splitCharAux sep cs (c :: acc)

/-- Python `str.split(sep)` for one character. -/
def pySplitChar (sep : Char) (l : List Char) : List (List Char) :=
  splitCharAux sep l []

/-- Python `str.split(sep)` scanner for a multi-character separator. The
fuel argument (always the input length at the call site, one unit per
consumed character at minimum) keeps the recursion structural. -/
def splitSubAux (sep : List Char) : Nat → List Char → List Char → List (List Char)
  | _, [], acc => [acc.reverse]
  | 0, l, acc => [acc.reverse ++ l]
  | fuel + 1, c :: cs, acc =>
    if sep.isPrefixOf (c :: cs) then
      acc.reverse :: splitSubAux sep fuel (cs.drop (sep.length - 1)) []
    else splitSubAux sep fuel cs (c :: acc)

/-- Python `str.split(sep)` for a multi-character separator — the
`where_clause.split('AND')` of `HiveWarehouse.query`. -/
def splitOnSub (sep l : List Char) : List (List Char) :=
  splitSubAux sep l.length l []

/-- Python `' '.join(parts)`. -/
def joinSp (ws : List (List Char)) : List Char :=
  (ws.intersperse [' ']).flatten

/-- Python `list.index` (total here; every call site guards with a
membership test first, as the source does with `in parts`). -/
def idxOf (a : List Char) : List (List Char) → Nat
  | [] => 0
  | b :: bs => if b = a then 0 else idxOf a bs + 1

/-- Strip characters satisfying `p` from both ends (Python `str.strip`
family). -/
def trimBy (p : Char → Bool) (l : List Char) : List Char :=
  ((l.dropWhile p).reverse.dropWhile p).reverse

/-- Whitespace test for the `strip()` calls of `query`. -/
def isWsChar (c : Char) : Bool :=
  c = ' ' || c = '\t' || c = '\n' || c = '\r'

/-- Digit-run to number, for the `int(val)` attempt. -/
def natOfDigits (l : List Char) : Nat :=
  l.foldl (fun n c => n * 10 + (c.toNat - '0'.toNat)) 0

/-- Python `int(val)` on an already-stripped literal: optional sign then
a non-empty digit run, else `ValueError` (`none`). -/
def pyInt? (l : List Char) : Option Int :=
  match l with
  | '-' :: rest =>
    if !rest.isEmpty && rest.all (fun c => c.isDigit) then some (-(natOfDigits rest : Int))
    else none
  | '+' :: rest =>
    if !rest.isEmpty && rest.all (fun c => c.isDigit) then some ((natOfDigits rest : Int))
    else none
  | _ =>
    if !l.isEmpty && l.all (fun c => c.isDigit) then some ((natOfDigits l : Int))
    else none

/-- Shape test approximating Python `float(val)` acceptance for the
literals the query grammar produces: optional sign, digits with at most
one dot, at least one digit. (No claim exercises this branch; the value
is carried as its literal text.) -/
def isFloatLit (l : List Char) : Bool :=
  let core := match l with
    | '-' :: r => r
    | '+' :: r => r
    | _ => l
  !core.isEmpty && core.all (fun c => c.isDigit || c = '.') &&
    ((core.filter (fun c => c = '.')).length ≤ 1) && core.any (fun c => c.isDigit)

/-- The value coercion ladder of `HiveWarehouse.query`: try `int`, then
`float`, else keep the stripped string. -/
def coerceVal (l : List Char) : PValue :=
  match pyInt? l with
  | some n => .vInt n
  | none => if isFloatLit l then .vFloat ⟨l⟩ else .vStr ⟨l⟩

/-- Python `chr(39)`, the single-quote character stripped by
`val.strip("'")`. -/
def squote : Char := Char.ofNat 39

/-- One iteration of the condition loop of `HiveWarehouse.query`: a
condition without `=` is skipped silently; one with `=` is split on `=`
(`col, val = cond.split('=')` unpacks exactly two pieces or raises),
both sides stripped, the value coerced, and the filter dict updated. -/
def parseCond (fs : Row) (cond : List Char) : Except String Row :=
  if '=' ∈ cond then
    match pySplitChar '=' cond with
    | [c, v] =>
      let col : String := ⟨trimBy isWsChar c⟩
      let val := coerceVal (trimBy (fun ch => ch = '"')
        (trimBy (fun ch => ch = squote) (trimBy isWsChar v)))
      .ok (setCol fs col val)
    | _ => .error "ValueError: too many values to unpack"
  else .ok fs

/-- The condition loop of `HiveWarehouse.query` over all conditions. -/
def collectFilters (conds : List (List Char)) : Except String Row :=
  conds.foldl (fun acc cond =>
    match acc with
    | .error e => .error e
    | .ok fs => parseCond fs cond) (.ok [])

/-- `sql_like_filter.split()` of `HiveWarehouse.query`. -/
def queryParts (sql : List Char) : List (List Char) :=
  pyWords sql

/-- The conditions of the WHERE clause: everything after `WHERE` joined
with spaces, then split on the substring `AND`. -/
def condsOf (sql : List Char) : List (List Char) :=
  splitOnSub "AND".data
    (joinSp ((queryParts sql).drop (idxOf "WHERE".data (queryParts sql) + 1)))

/-- `HiveWarehouse.query` of `hive_query_engine.py`: require `FROM`, take
the next token as the table name (raising `IndexError` if `FROM` is
last), collect equality filters from the WHERE clause if present, and
call `read_table` — with `None` when the collected filter dict is empty
(`partitions=filters if filters else None`). -/
def query_engine (w : List TableDir) (ms : List (String × Metadata)) (sql : List Char) :
    Except String DF :=
  let parts := queryParts sql
  if "FROM".data ∈ parts then
    match parts.drop (idxOf "FROM".data parts + 1) with
    | [] => .error "IndexError: list index out of range"
    | t :: _ =>
      let fsRes : Except String Row :=
        if "WHERE".data ∈ parts then collectFilters (condsOf sql) else .ok []
      match fsRes with
      | .error e => .error e
      | .ok fs => read_table_engine w ms ⟨t⟩ (if fs.isEmpty then none else some fs)
  else .error "Query must contain FROM"

/-- The row counterpart of the engine's glob match: the filter's encoded
pattern segments (engine encoding) are a prefix of the partition path the
writer produced for this row's key combination. This is the exact
row-selection condition `read_table`'s pruning branch implements. -/
def rowMatchesE (F : Row) (P : List String) (r : Row) : Bool :=
  (F.map (fun p => encSegE p.1 p.2)).isPrefixOf (pathOfCombo P (projRow P r))

/-- What a full-table read of `hive_analytics.py` reconstructs from one
written row: the payload columns in order (partition columns dropped),
followed by the partition columns in declared order, each holding the
*encoded* path string of its original value (so `*_month` values come
back zero-padded). -/
def roundTripRow (P : List String) (r : Row) : Row :=
  stripCols P r ++
    P.map (fun c => (c, PValue.vStr (encValW c ((alookup c r).getD (.vStr "")))))

/-! Concrete data used by witnesses and counterexamples: the spec §8
scenario — `fact_sales` partitioned by `(order_year, order_month)` with
three rows in `(2017, 11)` and two in `(2017, 12)` — plus a one-row
`dim_customer` partitioned by `region`. -/

/-- Partition columns of the example fact table. -/
def exP : List String := ["order_year", "order_month"]

/-- One example fact row. -/
def exRow (y mo sk : Int) : Row :=
  [("order_id", .vInt sk), ("Sales", .vInt (10 * sk)),
   ("order_year", .vInt y), ("order_month", .vInt mo)]

/-- The five example fact rows. -/
def exR : DF := [exRow 2017 11 1, exRow 2017 11 2, exRow 2017 11 3, exRow 2017 12 4, exRow 2017 12 5]

/-- Example sidecar metadata. -/
def exM : Metadata := { record_count := 5, partitions := ["p1", "p2"] }

/-- Example warehouse holding the written fact table. -/
def exW : List TableDir := [mkTable "fact_sales" exM exP exR]

/-- The metastore cached from `exW`. -/
def exMS : List (String × Metadata) := [("fact_sales", exM)]

/-- A one-row customer dimension row. -/
def exCustRow : Row := [("region", .vStr "East"), ("customer_sk", .vInt 1)]

/-- Warehouse holding the written one-row customer dimension. -/
def exWc : List TableDir := [mkTable "dim_customer" exM ["region"] [exCustRow]]

/-- The metastore cached from `exWc`. -/
def exMSc : List (String × Metadata) := [("dim_customer", exM)]

/-- A fact table with a single-digit month, whose written path segment is
the padded `order_month=01`. -/
def exW1 : List TableDir := [mkTable "fact_sales" exM exP [exRow 2018 1 9]]

/-! ### Association-list and column-assignment lemmas -/

theorem string_mk_data (s : String) : (⟨s.data⟩ : String) = s := by
  cases s
  rfl

theorem alookup_cons {β : Type} (k : String) (p : String × β) (ps : List (String × β)) :
    alookup k (p :: ps) = if p.1 = k then some p.2 else alookup k ps := rfl

theorem alookup_head {β : Type} (k : String) (v : β) (l : List (String × β)) :
    alookup k ((k, v) :: l) = some v := by
  simp [alookup_cons]

theorem alookup_append_of_none {β : Type} {k : String} {l₁ : List (String × β)}
    (l₂ : List (String × β)) (h : alookup k l₁ = none) :
    alookup k (l₁ ++ l₂) = alookup k l₂ := by
  induction l₁ with
  | nil => rfl
  | cons p ps ih =>
    rw [alookup_cons] at h
    rw [List.cons_append, alookup_cons]
    by_cases hpk : p.1 = k
    · simp [hpk] at h
    · rw [if_neg hpk] at h
      rw [if_neg hpk]
      exact ih h

theorem alookup_stripCols_of_mem {P : List String} {c : String} (r : Row) (hc : c ∈ P) :
    alookup c (stripCols P r) = none := by
  induction r with
  | nil => rfl
  | cons p ps ih =>
    unfold stripCols at ih ⊢
    rw [List.filter_cons]
    by_cases hp : p.1 ∈ P
    · rw [if_neg (by simp [hp])]
      exact ih
    · rw [if_pos (by simp [hp])]
      have hne : ¬ p.1 = c := fun e => hp (by rw [e]; exact hc)
      rw [alookup_cons, if_neg hne]
      exact ih

theorem alookup_map_overwrite (r : Row) (c : String) (v : PValue)
    (h : (alookup c r).isSome = true) :
    alookup c (r.map (fun p => if p.1 = c then (p.1, v) else p)) = some v := by
  induction r with
  | nil => simp [alookup] at h
  | cons p ps ih =>
    by_cases hpc : p.1 = c
    · simp [List.map_cons, hpc, alookup_cons]
    · rw [alookup_cons, if_neg hpc] at h
      simp only [List.map_cons, if_neg hpc, alookup_cons]
      exact ih h

theorem alookup_map_overwrite_ne (r : Row) {c c' : String} (v : PValue) (h : c' ≠ c) :
    alookup c' (r.map (fun p => if p.1 = c then (p.1, v) else p)) = alookup c' r := by
  induction r with
  | nil => rfl
  | cons p ps ih =>
    by_cases hpc : p.1 = c
    · have hcc : ¬ c = c' := fun e => h e.symm
      simp [List.map_cons, alookup_cons, hpc, hcc, ih]
    · simp only [List.map_cons, alookup_cons, if_neg hpc]
      by_cases hpc' : p.1 = c'
      · simp [hpc']
      · simp [hpc', ih]

theorem alookup_append_single_ne (r : Row) {c c' : String} (v : PValue) (h : c' ≠ c) :
    alookup c' (r ++ [(c, v)]) = alookup c' r := by
  induction r with
  | nil =>
    have : ¬ c = c' := fun e => h e.symm
    simp [alookup_cons, alookup, this]
  | cons p ps ih =>
    rw [List.cons_append, alookup_cons, alookup_cons]
    by_cases hpc : p.1 = c'
    · rw [if_pos hpc, if_pos hpc]
    · rw [if_neg hpc, if_neg hpc]
      exact ih

theorem setCol_of_none (r : Row) (c : String) (v : PValue) (h : alookup c r = none) :
    setCol r c v = r ++ [(c, v)] := by
  unfold setCol
  rw [h]
  rfl

theorem alookup_setCol_self (r : Row) (c : String) (v : PValue) :
    alookup c (setCol r c v) = some v := by
  unfold setCol
  cases h : alookup c r with
  | some w =>
    rw [if_pos (by simp)]
    exact alookup_map_overwrite r c v (by rw [h]; rfl)
  | none =>
    rw [if_neg (by simp)]
    rw [alookup_append_of_none _ h, alookup_head]

theorem alookup_setCol_ne (r : Row) {c c' : String} (v : PValue) (h : c' ≠ c) :
    alookup c' (setCol r c v) = alookup c' r := by
  unfold setCol
  by_cases hs : (alookup c r).isSome
  · rw [if_pos hs]
    exact alookup_map_overwrite_ne r v h
  · rw [if_neg hs]
    exact alookup_append_single_ne r v h

theorem alookup_attachAll_not_mem (F : Row) (r : Row) {c : String}
    (h : c ∉ F.map Prod.fst) : alookup c (attachAll F r) = alookup c r := by
  induction F generalizing r with
  | nil => rfl
  | cons p F ih =>
    simp only [List.map_cons, List.mem_cons] at h
    push_neg at h
    show alookup c (attachAll F (setCol r p.1 p.2)) = alookup c r
    rw [ih (setCol r p.1 p.2) h.2, alookup_setCol_ne r p.2 h.1]

theorem alookup_attachAll_mem (F : Row) (r : Row) {c : String} {v : PValue}
    (hnd : (F.map Prod.fst).Nodup) (hmem : (c, v) ∈ F) :
    alookup c (attachAll F r) = some v := by
  induction F generalizing r with
  | nil => cases hmem
  | cons p F ih =>
    rw [List.map_cons, List.nodup_cons] at hnd
    show alookup c (attachAll F (setCol r p.1 p.2)) = some v
    rcases List.mem_cons.mp hmem with he | hm
    · have h1 : c ∉ F.map Prod.fst := by
        have : p.1 = c := by rw [← he]
        rw [← this]
        exact hnd.1
      rw [alookup_attachAll_not_mem F _ h1]
      have h2 : p.1 = c := by rw [← he]
      have h3 : p.2 = v := by rw [← he]
      rw [← h2, ← h3]
      exact alookup_setCol_self r p.1 p.2
    · exact ih (setCol r p.1 p.2) hnd.2 hm

/-! ### Keep-first deduplication lemmas -/

theorem mem_dedupFirst {α : Type} [DecidableEq α] {x : α} :
    ∀ {l : List α}, x ∈ dedupFirst l ↔ x ∈ l
  | [] => Iff.rfl
  | a :: as => by
    unfold dedupFirst
    by_cases hxa : x = a
    · simp [hxa]
    · simp only [List.mem_cons, hxa, false_or, List.mem_filter]
      rw [← mem_dedupFirst (l := as)]
      simp [hxa]

theorem nodup_dedupFirst {α : Type} [DecidableEq α] : ∀ (l : List α), (dedupFirst l).Nodup
  | [] => List.nodup_nil
  | a :: as => by
    unfold dedupFirst
    refine List.Nodup.cons ?_ (List.Nodup.filter _ (nodup_dedupFirst as))
    intro hmem
    have := (List.mem_filter.mp hmem).2
    simp at this

/-! ### Path codec lemmas -/

theorem takeWhile_append_all {p : Char → Bool} (l₁ l₂ : List Char) (h : ∀ a ∈ l₁, p a = true) :
    (l₁ ++ l₂).takeWhile p = l₁ ++ l₂.takeWhile p := by
  induction l₁ with
  | nil => rfl
  | cons a as ih =>
    rw [List.cons_append, List.takeWhile_cons, if_pos (h a (List.mem_cons_self a as))]
    rw [ih (fun x hx => h x (List.mem_cons_of_mem a hx)), List.cons_append]

theorem dropWhile_append_all {p : Char → Bool} (l₁ l₂ : List Char) (h : ∀ a ∈ l₁, p a = true) :
    (l₁ ++ l₂).dropWhile p = l₂.dropWhile p := by
  induction l₁ with
  | nil => rfl
  | cons a as ih =>
    rw [List.cons_append, List.dropWhile_cons, if_pos (h a (List.mem_cons_self a as))]
    exact ih (fun x hx => h x (List.mem_cons_of_mem a hx))

theorem decodeSeg_enc (c : String) (w : List Char) (h : '=' ∉ c.data) :
    decodeSeg (c.data ++ '=' :: w) = some (c, ⟨w⟩) := by
  unfold decodeSeg
  rw [if_pos (by simp)]
  have hall : ∀ a ∈ c.data, (fun ch => decide (ch ≠ '=')) a = true := by
    intro a ha
    simp only [decide_eq_true_eq]
    exact fun e => h (e ▸ ha)
  rw [takeWhile_append_all _ _ hall, dropWhile_append_all _ _ hall]
  rw [List.takeWhile_cons, List.dropWhile_cons]
  simp only [decide_eq_true_eq, ne_eq, not_true_eq_false, if_false, List.append_nil,
    List.tail_cons, string_mk_data]

theorem decodeAttach_encoded : ∀ (ps : Row) (r0 : Row),
    (ps.map Prod.fst).Nodup → (∀ p ∈ ps, '=' ∉ p.1.data) →
    (∀ p ∈ ps, alookup p.1 r0 = none) →
    decodeAttach (ps.map (fun p => encSegW p.1 p.2)) r0
      = r0 ++ ps.map (fun p => (p.1, PValue.vStr (encValW p.1 p.2)))
  | [], r0, _, _, _ => by simp [decodeAttach]
  | p :: ps, r0, hnd, hne, h0 => by
    rw [List.map_cons]
    have hd : decodeSeg (encSegW p.1 p.2) = some (p.1, encValW p.1 p.2) := by
      rw [encSegW, decodeSeg_enc _ _ (hne p (List.mem_cons_self p ps)), string_mk_data]
    show decodeAttach (encSegW p.1 p.2 :: ps.map (fun p => encSegW p.1 p.2)) r0 = _
    rw [decodeAttach, hd]
    show decodeAttach (ps.map (fun p => encSegW p.1 p.2))
      (setCol r0 p.1 (PValue.vStr (encValW p.1 p.2))) = _
    rw [List.map_cons, List.nodup_cons] at hnd
    have hset : setCol r0 p.1 (.vStr (encValW p.1 p.2))
        = r0 ++ [(p.1, PValue.vStr (encValW p.1 p.2))] :=
      setCol_of_none _ _ _ (h0 p (List.mem_cons_self p ps))
    rw [hset]
    have h0' : ∀ q ∈ ps, alookup q.1 (r0 ++ [(p.1, PValue.vStr (encValW p.1 p.2))]) = none := by
      intro q hq
      have hqp : q.1 ≠ p.1 := by
        intro e
        exact hnd.1 (e ▸ List.mem_map_of_mem Prod.fst hq)
      rw [alookup_append_single_ne _ _ hqp]
      exact h0 q (List.mem_cons_of_mem p hq)
    rw [decodeAttach_encoded ps _ hnd.2 (fun q hq => hne q (List.mem_cons_of_mem p hq)) h0']
    rw [List.map_cons, List.append_assoc]
    rfl

/-! ### Grouping and permutation lemmas -/

theorem flatMap_congr_mem {α β : Type} {C : List α} {f g : α → List β}
    (h : ∀ x ∈ C, f x = g x) : C.flatMap f = C.flatMap g := by
  induction C with
  | nil => rfl
  | cons a as ih =>
    rw [List.flatMap_cons, List.flatMap_cons, h a (List.mem_cons_self a as),
      ih (fun x hx => h x (List.mem_cons_of_mem a hx))]

/-- Grouping a list by the distinct values of a projection and
concatenating the groups is a permutation of the original list (with a
per-group transformation applied). This is the core fact behind both the
round-trip and the pruning characterization: the writer's per-partition
files are exactly such groups. -/
theorem perm_partition {α β γ : Type} [DecidableEq α] (proj : β → α) (g : α → β → γ) :
    ∀ (R : List β) (C : List α), C.Nodup → (∀ r ∈ R, proj r ∈ C) →
    (C.flatMap (fun vs => (R.filter (fun r => decide (proj r = vs))).map (g vs))).Perm
      (R.map (fun r => g (proj r) r))
  | [], C, _, _ => by
    simp [List.filter_nil]
  | r :: R, C, hC, hmem => by
    have hr : proj r ∈ C := hmem r (List.mem_cons_self r R)
    obtain ⟨C₁, C₂, rfl⟩ := List.append_of_mem hr
    have hC' := List.nodup_middle.mp hC
    rw [List.nodup_cons] at hC'
    have hskip : ∀ vs, vs ≠ proj r →
        ((r :: R).filter (fun x => decide (proj x = vs))).map (g vs)
          = (R.filter (fun x => decide (proj x = vs))).map (g vs) := by
      intro vs hvs
      have hne : ¬ proj r = vs := fun e => hvs e.symm
      rw [List.filter_cons, if_neg (by simp only [decide_eq_true_eq]; exact hne)]
    have hmid : ((r :: R).filter (fun x => decide (proj x = proj r))).map (g (proj r))
        = g (proj r) r :: (R.filter (fun x => decide (proj x = proj r))).map (g (proj r)) := by
      rw [List.filter_cons, if_pos (by simp)]
      rfl
    have h₁ : ∀ vs ∈ C₁, vs ≠ proj r := by
      intro vs hvs e
      exact hC'.1 (List.mem_append.mpr (Or.inl (e ▸ hvs)))
    have h₂ : ∀ vs ∈ C₂, vs ≠ proj r := by
      intro vs hvs e
      exact hC'.1 (List.mem_append.mpr (Or.inr (e ▸ hvs)))
    rw [List.flatMap_append, List.flatMap_cons]
    rw [flatMap_congr_mem (fun vs hvs => hskip vs (h₁ vs hvs))]
    rw [flatMap_congr_mem (fun vs hvs => hskip vs (h₂ vs hvs))]
    rw [hmid, List.cons_append]
    refine (List.perm_middle).trans ?_
    rw [List.map_cons]
    refine List.Perm.cons _ ?_
    have hrec := perm_partition proj g R (C₁ ++ proj r :: C₂) hC
      (fun x hx => hmem x (List.mem_cons_of_mem r hx))
    rw [List.flatMap_append, List.flatMap_cons] at hrec
    exact hrec

/-! ### Characterizations of reads over a freshly written table -/

theorem tableFiles_single (tn : String) (t : TableDir) (h : t.name = tn) :
    tableFiles [t] tn = t.files := by
  unfold tableFiles
  rw [List.find?_cons_of_pos _ (by simp [h])]

theorem tableFiles_mkTable (tn : String) (m : Metadata) (P : List String) (R : DF) :
    tableFiles [mkTable tn m P R] tn = writeTable P R :=
  tableFiles_single tn _ rfl

theorem zip_map_self {α β : Type} (f : α → β) :
    ∀ (l : List α), l.zip (l.map f) = l.map (fun a => (a, f a))
  | [] => rfl
  | a :: as => by
    rw [List.map_cons, List.zip_cons_cons, zip_map_self f as, List.map_cons]

theorem decode_write_row (P : List String) (r : Row) (hnd : P.Nodup)
    (hne : ∀ c ∈ P, '=' ∉ c.data) :
    decodeAttach (pathOfCombo P (projRow P r)) (stripCols P r) = roundTripRow P r := by
  have hzip : P.zip (projRow P r)
      = P.map (fun c => (c, (alookup c r).getD (PValue.vStr ""))) := zip_map_self _ P
  have hfst : (P.map (fun c => (c, (alookup c r).getD (PValue.vStr "")))).map Prod.fst = P := by
    simp only [List.map_map]
    exact List.map_id P
  unfold pathOfCombo roundTripRow
  rw [hzip]
  rw [decodeAttach_encoded _ _ (by rw [hfst]; exact hnd)
    (by
      intro p hp
      rcases List.mem_map.mp hp with ⟨c, hc, rfl⟩
      exact hne c hc)
    (by
      intro p hp
      rcases List.mem_map.mp hp with ⟨c, hc, rfl⟩
      exact alookup_stripCols_of_mem r hc)]
  rw [List.map_map]
  rfl

/-- A full-table read through `hive_analytics.py` of a freshly written
table is a permutation of the input rows transformed by `roundTripRow`. -/
theorem full_analytics_on_write (P : List String) (R : DF) (hnd : P.Nodup)
    (hne : ∀ c ∈ P, '=' ∉ c.data) :
    (full_read_analytics (writeTable P R)).Perm (R.map (roundTripRow P)) := by
  unfold full_read_analytics writeTable
  rw [List.flatMap_map]
  rw [flatMap_congr_mem (g := fun vs => (R.filter (fun r => decide (projRow P r = vs))).map
      (fun r => decodeAttach (pathOfCombo P vs) (stripCols P r)))
    (by
      intro vs _
      show (((R.filter (fun r => decide (projRow P r = vs))).map (fun r => stripCols P r)).map
        (fun r => decodeAttach (pathOfCombo P vs) r)) = _
      rw [List.map_map]
      rfl)]
  have hperm := perm_partition (projRow P)
    (fun vs r => decodeAttach (pathOfCombo P vs) (stripCols P r)) R (combosOf P R)
    (nodup_dedupFirst _)
    (fun r hr => mem_dedupFirst.mpr (List.mem_map_of_mem (projRow P) hr))
  refine hperm.trans ?_
  rw [List.map_congr_left (fun r _ => decode_write_row P r hnd hne)]

/-- The pruning branch of `hive_query_engine.py` over a freshly written
table selects exactly the rows whose written partition path extends the
filter's encoded segments, transformed by dropping the partition columns
and reattaching the filter columns with the caller's values. -/
theorem pruned_engine_perm (P : List String) (R : DF) (F : Row) :
    (((writeTable P R).filter
        (fun f => (F.map (fun p => encSegE p.1 p.2)).isPrefixOf f.path)).flatMap
        (fun f => f.rows.map (fun r => attachAll F r))).Perm
      ((R.filter (fun r => rowMatchesE F P r)).map (fun r => attachAll F (stripCols P r))) := by
  unfold writeTable
  rw [List.filter_map, List.flatMap_map]
  rw [flatMap_congr_mem (g := fun vs => ((R.filter (fun r => rowMatchesE F P r)).filter
        (fun r => decide (projRow P r = vs))).map (fun r => attachAll F (stripCols P r)))
    (by
      intro vs hvs
      have hq : ((F.map (fun p => encSegE p.1 p.2)).isPrefixOf (pathOfCombo P vs)) = true :=
        (List.mem_filter.mp hvs).2
      show (((R.filter (fun r => decide (projRow P r = vs))).map (fun r => stripCols P r)).map
        (fun r => attachAll F r)) = _
      rw [List.map_map]
      have hfilters : (R.filter (fun r => rowMatchesE F P r)).filter
          (fun r => decide (projRow P r = vs))
          = R.filter (fun r => decide (projRow P r = vs)) := by
        rw [List.filter_filter]
        refine List.filter_congr ?_
        intro r _
        by_cases hp : projRow P r = vs
        · have hm : rowMatchesE F P r = true := by
            unfold rowMatchesE
            rw [hp]
            exact hq
          simp [hp, hm]
        · simp [hp]
      rw [← hfilters]
      rfl)]
  have hperm := perm_partition (projRow P)
    (fun _ r => attachAll F (stripCols P r))
    (R.filter (fun r => rowMatchesE F P r))
    (((combosOf P R)).filter
      (fun vs => (F.map (fun p => encSegE p.1 p.2)).isPrefixOf (pathOfCombo P vs)))
    (List.Nodup.filter _ (nodup_dedupFirst _))
    (by
      intro r hr
      rcases List.mem_filter.mp hr with ⟨hrR, hrM⟩
      refine List.mem_filter.mpr ⟨mem_dedupFirst.mpr (List.mem_map_of_mem (projRow P) hrR), ?_⟩
      exact hrM)
  exact hperm

/-! ### Metastore loader characterizations -/

theorem load_engine_ok_iff : ∀ (tds : List TableDir),
    (∃ ms, load_metastore_engine tds = .ok ms) ↔ ∀ t ∈ tds, t.sidecar ≠ .corrupt
  | [] => by simp [load_metastore_engine]
  | t :: ts => by
    cases hs : t.sidecar with
    | missing =>
      have heq : load_metastore_engine (t :: ts) = load_metastore_engine ts := by
        simp only [load_metastore_engine, hs]
      rw [heq, load_engine_ok_iff ts, List.forall_mem_cons, hs]
      simp
    | corrupt =>
      have heq : load_metastore_engine (t :: ts) = .error "json.JSONDecodeError" := by
        simp only [load_metastore_engine, hs]
      rw [heq, List.forall_mem_cons, hs]
      simp
    | good mm =>
      have heq : load_metastore_engine (t :: ts) = match load_metastore_engine ts with
          | .ok ms => .ok ((t.name, mm) :: ms)
          | .error e => .error e := by
        simp only [load_metastore_engine, hs]
      rw [heq, List.forall_mem_cons, hs]
      cases hl : load_metastore_engine ts with
      | ok ms =>
        have hX : ∀ u ∈ ts, u.sidecar ≠ Sidecar.corrupt :=
          (load_engine_ok_iff ts).mp ⟨ms, hl⟩
        simp only [hl]
        simp
        exact hX
      | error e =>
        have hX : ¬ ∀ u ∈ ts, u.sidecar ≠ Sidecar.corrupt := by
          rw [← load_engine_ok_iff ts]
          rintro ⟨ms, hms⟩
          rw [hl] at hms
          cases hms
        simp [hX]

theorem load_verify_mem_iff : ∀ (tds : List TableDir) (n : String) (m' : Metadata),
    (n, m') ∈ load_metastore_verify tds ↔ ∃ t ∈ tds, t.name = n ∧ t.sidecar = .good m'
  | [], n, m' => by simp [load_metastore_verify]
  | t :: ts, n, m' => by
    cases hs : t.sidecar with
    | missing =>
      have heq : load_metastore_verify (t :: ts) = load_metastore_verify ts := by
        simp only [load_metastore_verify, hs]
      rw [heq, load_verify_mem_iff ts n m']
      constructor
      · rintro ⟨u, hu, h⟩
        exact ⟨u, List.mem_cons_of_mem t hu, h⟩
      · rintro ⟨u, hu, hn, hg⟩
        rcases List.mem_cons.mp hu with rfl | hu'
        · rw [hs] at hg
          cases hg
        · exact ⟨u, hu', hn, hg⟩
    | corrupt =>
      have heq : load_metastore_verify (t :: ts) = load_metastore_verify ts := by
        simp only [load_metastore_verify, hs]
      rw [heq, load_verify_mem_iff ts n m']
      constructor
      · rintro ⟨u, hu, h⟩
        exact ⟨u, List.mem_cons_of_mem t hu, h⟩
      · rintro ⟨u, hu, hn, hg⟩
        rcases List.mem_cons.mp hu with rfl | hu'
        · rw [hs] at hg
          cases hg
        · exact ⟨u, hu', hn, hg⟩
    | good mm =>
      have heq : load_metastore_verify (t :: ts) = (t.name, mm) :: load_metastore_verify ts := by
        simp only [load_metastore_verify, hs]
      rw [heq, List.mem_cons, load_verify_mem_iff ts n m']
      constructor
      · rintro (hpair | ⟨u, hu, h⟩)
        · have h1 : n = t.name := congrArg Prod.fst hpair
          have h2 : m' = mm := congrArg Prod.snd hpair
          refine ⟨t, List.mem_cons_self t ts, h1.symm, ?_⟩
          rw [hs, h2]
        · exact ⟨u, List.mem_cons_of_mem t hu, h⟩
      · rintro ⟨u, hu, hn, hg⟩
        rcases List.mem_cons.mp hu with rfl | hu'
        · left
          rw [hs] at hg
          injection hg with hmm
          rw [hn, hmm]
        · right
          exact ⟨u, hu', hn, hg⟩

theorem load_engine_mem_iff : ∀ (tds : List TableDir) (ms : List (String × Metadata)),
    load_metastore_engine tds = .ok ms → ∀ (n : String) (m' : Metadata),
    ((n, m') ∈ ms ↔ ∃ t ∈ tds, t.name = n ∧ t.sidecar = .good m')
  | [], ms, h => by
    injection h with h'
    subst h'
    simp
  | t :: ts, ms, h => by
    intro n m'
    cases hs : t.sidecar with
    | missing =>
      have heq : load_metastore_engine (t :: ts) = load_metastore_engine ts := by
        simp only [load_metastore_engine, hs]
      rw [heq] at h
      rw [load_engine_mem_iff ts ms h n m']
      constructor
      · rintro ⟨u, hu, hh⟩
        exact ⟨u, List.mem_cons_of_mem t hu, hh⟩
      · rintro ⟨u, hu, hn, hg⟩
        rcases List.mem_cons.mp hu with rfl | hu'
        · rw [hs] at hg
          cases hg
        · exact ⟨u, hu', hn, hg⟩
    | corrupt =>
      have heq : load_metastore_engine (t :: ts) = .error "json.JSONDecodeError" := by
        simp only [load_metastore_engine, hs]
      rw [heq] at h
      cases h
    | good mm =>
      have heq : load_metastore_engine (t :: ts) = match load_metastore_engine ts with
          | .ok ms => .ok ((t.name, mm) :: ms)
          | .error e => .error e := by
        simp only [load_metastore_engine, hs]
      rw [heq] at h
      cases hl : load_metastore_engine ts with
      | ok ms0 =>
        rw [hl] at h
        injection h with h'
        subst h'
        rw [List.mem_cons, load_engine_mem_iff ts ms0 hl n m']
        constructor
        · rintro (hpair | ⟨u, hu, hh⟩)
          · have h1 : n = t.name := congrArg Prod.fst hpair
            have h2 : m' = mm := congrArg Prod.snd hpair
            refine ⟨t, List.mem_cons_self t ts, h1.symm, ?_⟩
            rw [hs, h2]
          · exact ⟨u, List.mem_cons_of_mem t hu, hh⟩
        · rintro ⟨u, hu, hn, hg⟩
          rcases List.mem_cons.mp hu with rfl | hu'
          · left
            rw [hs] at hg
            injection hg with hmm
            rw [hn, hmm]
          · right
            exact ⟨u, hu', hn, hg⟩
      | error e =>
        rw [hl] at h
        cases h

/-! ### Zero-fill lemmas -/

theorem zfill_of_le (w : Nat) (s : String) (h : w ≤ s.data.length) : zfill w s = s := by
  unfold zfill
  rw [if_pos h]

theorem zfill_two_length (s : String) : 2 ≤ (zfill 2 s).data.length := by
  unfold zfill
  by_cases h : 2 ≤ s.data.length
  · rw [if_pos h]
    exact h
  · rw [if_neg h]
    cases hd : s.data with
    | nil => simp
    | cons c rest =>
      have hr : rest.length = 0 := by
        rw [hd] at h
        simp only [List.length_cons] at h
        omega
      show 2 ≤ (if c = '+' ∨ c = '-' then
          (⟨c :: (List.replicate (2 - (c :: rest).length) '0' ++ rest)⟩ : String)
        else ⟨List.replicate (2 - (c :: rest).length) '0' ++ (c :: rest)⟩).data.length
      by_cases hc : c = '+' ∨ c = '-'
      · rw [if_pos hc]
        simp [hr]
      · rw [if_neg hc]
        simp [hr]

/-! ### Claim theorems -/

/-- C1 (corrected). Round-trip holds for the `hive_analytics.py` reader:
for every table written with a non-empty, duplicate-free partition
column set `P` (column names without `=`) and payload rows `R`, the
full-table read with no filter returns a row multiset equal to `R` with
each `P` column reconstructed from the `key=value` path segments — as
the *encoded* string of the originally written value, i.e. `str(value)`
zero-padded to width 2 for `*_month` columns, not plain `str(value)`.
The `hive_query_engine.py` reader does not reconstruct partition columns
at all on its full-table branch (see the counterexample). -/
theorem roundtrip_analytics_full (tn : String) (m : Metadata) (P : List String) (R : DF)
    (hP : P ≠ []) (hnd : P.Nodup) (hne : ∀ c ∈ P, '=' ∉ c.data) :
    read_table_analytics [mkTable tn m P R] [(tn, m)] tn none
      = .ok (full_read_analytics (writeTable P R)) ∧
    (↑(full_read_analytics (writeTable P R)) : Multiset Row) = ↑(R.map (roundTripRow P)) := by
  constructor
  · simp only [read_table_analytics, alookup_head]
    rw [tableFiles_mkTable]
    by_cases hemp : (writeTable P R).isEmpty
    · rw [if_pos hemp, List.isEmpty_iff.mp hemp]
      rfl
    · rw [if_neg hemp]
  · exact Multiset.coe_eq_coe.mpr (full_analytics_on_write P R hnd hne)

/-- Witness for the round-trip theorem at the spec §8 scenario
(`fact_sales` partitioned by `(order_year, order_month)`). -/
theorem roundtrip_analytics_full_witness :
    (exP ≠ [] ∧ exP.Nodup ∧ ∀ c ∈ exP, '=' ∉ c.data) ∧
    (read_table_analytics [mkTable "fact_sales" exM exP exR] [("fact_sales", exM)]
        "fact_sales" none = .ok (full_read_analytics (writeTable exP exR)) ∧
      (↑(full_read_analytics (writeTable exP exR)) : Multiset Row)
        = ↑(exR.map (roundTripRow exP))) :=
  ⟨⟨by decide, by decide, by decide⟩,
    roundtrip_analytics_full "fact_sales" exM exP exR (by decide) (by decide) (by decide)⟩

/-- C1 counterexample. The `hive_query_engine.py` full-table read of a
freshly written one-row `dim_customer` table (partitioned by `region`)
returns the payload row with no `region` column at all: the claimed
reconstruction of partition columns does not happen on this reader. -/
theorem roundtrip_engine_cex :
    read_table_engine exWc exMSc "dim_customer" none
      = .ok [[("customer_sk", PValue.vInt 1)]] ∧
    alookup "region" [("customer_sk", PValue.vInt 1)] = none :=
  ⟨by decide, by decide⟩

/-- C2 (corrected). The pruning branch of `hive_query_engine.py` returns
exactly the rows of `R` whose written partition path extends the
filter's encoded segment sequence (filter items in their given order),
with the partition columns dropped and the filter columns reattached
with the caller's values. Columns *after* the filtered prefix are
unconstrained (the recursive glob descends into all their
subdirectories), but a filter that skips a leading partition column
matches nothing — it is not left unconstrained as the claim states (see
the counterexample). -/
theorem pruned_engine_exact (tn : String) (m : Metadata) (P : List String) (R : DF) (F : Row)
    (hF : F ≠ []) :
    ∃ df, read_table_engine [mkTable tn m P R] [(tn, m)] tn (some F) = .ok df ∧
      (↑df : Multiset Row)
        = ↑((R.filter (fun r => rowMatchesE F P r)).map
            (fun r => attachAll F (stripCols P r))) := by
  refine ⟨((writeTable P R).filter
      (fun f => (F.map (fun p => encSegE p.1 p.2)).isPrefixOf f.path)).flatMap
      (fun f => f.rows.map (fun r => attachAll F r)), ?_, ?_⟩
  · simp only [read_table_engine, alookup_head]
    rw [tableFiles_mkTable]
    rw [if_neg (by simp [List.isEmpty_iff, hF])]
    by_cases hm : (((writeTable P R)).filter
        (fun f => (F.map (fun p => encSegE p.1 p.2)).isPrefixOf f.path)).isEmpty
    · rw [if_pos hm, List.isEmpty_iff.mp hm]
      rfl
    · rw [if_neg hm]
  · exact Multiset.coe_eq_coe.mpr (pruned_engine_perm P R F)

/-- Witness for the pruning theorem: filter on the leading partition
column `order_year` of the spec §8 scenario. -/
theorem pruned_engine_exact_witness :
    (([("order_year", PValue.vInt 2017)] : Row) ≠ []) ∧
    (∃ df, read_table_engine [mkTable "fact_sales" exM exP exR] [("fact_sales", exM)]
        "fact_sales" (some [("order_year", PValue.vInt 2017)]) = .ok df ∧
      (↑df : Multiset Row)
        = ↑((exR.filter (fun r => rowMatchesE [("order_year", PValue.vInt 2017)] exP r)).map
            (fun r => attachAll [("order_year", PValue.vInt 2017)] (stripCols exP r)))) :=
  ⟨by decide, pruned_engine_exact "fact_sales" exM exP exR _ (by decide)⟩

/-- C2 counterexample. Filtering only on the *second* partition column
`order_month` returns no rows even though matching rows exist: the
unfiltered leading column is not "left unconstrained" — the built path
pattern simply misses every written partition. -/
theorem pruned_month_only_cex :
    read_table_engine exW exMS "fact_sales" (some [("order_month", PValue.vInt 11)]) = .ok [] ∧
    exRow 2017 11 1 ∈ exR ∧
    alookup "order_month" (exRow 2017 11 1) = some (PValue.vInt 11) :=
  ⟨by decide, by decide, by decide⟩

/-- C3 (corrected). In `hive_query_engine.py`, every row of a filtered
read carries the filter columns with the caller's literal values, type
preserved. The second half of the claim fails: `hive_analytics.py`
reattaches path-decoded *strings* on filtered reads too (see the
counterexample), and `hive_query_engine.py` full-table reads do not
reattach partition columns at all (see the C1 counterexample). -/
theorem pruned_engine_caller_typed (w : List TableDir) (ms : List (String × Metadata))
    (tn : String) (F : Row) (df : DF)
    (hF : F ≠ []) (hnd : (F.map Prod.fst).Nodup)
    (hread : read_table_engine w ms tn (some F) = .ok df) :
    ∀ r ∈ df, ∀ p ∈ F, alookup p.1 r = some p.2 := by
  intro r hr p hp
  unfold read_table_engine at hread
  cases hms : alookup tn ms with
  | none =>
    rw [hms] at hread
    cases hread
  | some m =>
    rw [hms] at hread
    replace hread :
        (if F.isEmpty = true then
          (if (tableFiles w tn).isEmpty = true then Except.ok []
            else Except.ok (full_read_engine (tableFiles w tn)))
        else
          if ((tableFiles w tn).filter
              (fun f => (F.map (fun p => encSegE p.1 p.2)).isPrefixOf f.path)).isEmpty = true then
            (Except.ok [] : Except String DF)
          else
            Except.ok (((tableFiles w tn).filter
                (fun f => (F.map (fun p => encSegE p.1 p.2)).isPrefixOf f.path)).flatMap
              (fun f => f.rows.map (fun r => attachAll F r)))) = Except.ok df := hread
    rw [if_neg (by simp [List.isEmpty_iff, hF])] at hread
    by_cases hmch : ((tableFiles w tn).filter
        (fun f => (F.map (fun p => encSegE p.1 p.2)).isPrefixOf f.path)).isEmpty
    · rw [if_pos hmch] at hread
      cases hread
      cases hr
    · rw [if_neg hmch] at hread
      cases hread
      rcases List.mem_flatMap.mp hr with ⟨f, _, hrf⟩
      rcases List.mem_map.mp hrf with ⟨r0, _, rfl⟩
      exact alookup_attachAll_mem F r0 hnd hp

/-- Witness for the caller-typed reattachment theorem on the one-row
customer dimension. -/
theorem pruned_engine_caller_typed_witness :
    (([("region", PValue.vStr "East")] : Row) ≠ []) ∧
    ((([("region", PValue.vStr "East")] : Row).map Prod.fst).Nodup) ∧
    (read_table_engine exWc exMSc "dim_customer" (some [("region", PValue.vStr "East")])
      = .ok [[("customer_sk", PValue.vInt 1), ("region", PValue.vStr "East")]]) ∧
    (∀ r ∈ [[("customer_sk", PValue.vInt 1), ("region", PValue.vStr "East")]],
      ∀ p ∈ ([("region", PValue.vStr "East")] : Row), alookup p.1 r = some p.2) :=
  ⟨by decide, by decide, by decide,
    pruned_engine_caller_typed exWc exMSc "dim_customer" _ _
      (by decide) (by decide) (by decide)⟩

/-- C3 counterexample. A filtered read through `hive_analytics.py` with
the integer filter `order_year=2017` comes back with the string
`"2017"` in every row — the caller's type is not preserved there. -/
theorem analytics_filtered_string_cex :
    (read_table_analytics exW exMS "fact_sales"
        (some [("order_year", PValue.vInt 2017), ("order_month", PValue.vInt 11)])).map
      (fun df => df.map (fun r => alookup "order_year" r))
      = .ok [some (PValue.vStr "2017"), some (PValue.vStr "2017"), some (PValue.vStr "2017")] := by
  decide

/-- C4 (corrected). Both `hive_query_engine.py` and `hive_analytics.py`
raise the unknown-table error for any table name absent from the cached
metastore, for any filter argument. The embedded reader of
`verify_all.py`, also cited by the claim, performs no existence check at
all and returns a (possibly empty) dataframe instead (see the
counterexample). -/
theorem read_table_unknown_errors (w : List TableDir) (ms : List (String × Metadata))
    (tn : String) (parts? : Option Row) (h : alookup tn ms = none) :
    read_table_engine w ms tn parts? = .error ("Table " ++ tn ++ " not found") ∧
    read_table_analytics w ms tn parts? = .error ("Table " ++ tn ++ " not found") := by
  unfold read_table_engine read_table_analytics
  rw [h]
  exact ⟨rfl, rfl⟩

/-- Witness for the unknown-table theorem. -/
theorem read_table_unknown_errors_witness :
    alookup "ghost" exMS = none ∧
    (read_table_engine exW exMS "ghost" none = .error ("Table " ++ "ghost" ++ " not found") ∧
      read_table_analytics exW exMS "ghost" none
        = .error ("Table " ++ "ghost" ++ " not found")) :=
  ⟨by decide, read_table_unknown_errors exW exMS "ghost" none (by decide)⟩

/-- C4 counterexample. The embedded `read_table` of `verify_all.py`
returns an empty dataframe — it does not fail — when asked for a table
that is in no metastore, with or without a filter. -/
theorem read_table_verify_no_check_cex :
    read_table_verify exW "ghost" (some [("region", PValue.vStr "East")]) = [] ∧
    read_table_verify exW "ghost" none = [] :=
  ⟨by decide, by decide⟩

/-- C5 (corrected). At warehouse-open: (1) `hive_query_engine.py`'s
loader completes without raising exactly when no table has unparseable
sidecar content — a corrupt sidecar makes the load raise rather than be
silently skipped; (2) `verify_all.py`'s embedded loader is the one that
silently excludes both missing and corrupt sidecars, keeping exactly the
well-formed ones; (3) when the engine loader does complete, its mapping
holds exactly the tables with well-formed sidecars (missing ones are
silently excluded there too). -/
theorem load_metastore_amended :
    (∀ tds : List TableDir,
      (∃ ms, load_metastore_engine tds = .ok ms) ↔ ∀ t ∈ tds, t.sidecar ≠ .corrupt) ∧
    (∀ (tds : List TableDir) (n : String) (m' : Metadata),
      (n, m') ∈ load_metastore_verify tds ↔ ∃ t ∈ tds, t.name = n ∧ t.sidecar = .good m') ∧
    (∀ (tds : List TableDir) (ms : List (String × Metadata)),
      load_metastore_engine tds = .ok ms → ∀ (n : String) (m' : Metadata),
      ((n, m') ∈ ms ↔ ∃ t ∈ tds, t.name = n ∧ t.sidecar = .good m')) :=
  ⟨load_engine_ok_iff, load_verify_mem_iff, load_engine_mem_iff⟩

/-- Witness for the loader theorem: a warehouse with one good and one
missing sidecar loads, and the verify loader keeps a good table while
dropping a corrupt one. -/
theorem load_metastore_amended_witness :
    (∃ ms, load_metastore_engine [⟨"t1", .good exM, []⟩, ⟨"t2", .missing, []⟩] = .ok ms) ∧
    (("t1", exM) ∈ load_metastore_verify [⟨"t1", .good exM, []⟩, ⟨"t2", .corrupt, []⟩]) :=
  ⟨(load_metastore_amended.1 _).mpr (by decide),
    (load_metastore_amended.2.1 _ "t1" exM).mpr (by decide)⟩

/-- C5 counterexample. A warehouse whose only table has unparseable
sidecar content makes `hive_query_engine.py`'s metastore load raise
(`json.load` has no surrounding try/except there): the load does not
complete, contradicting the claimed silent exclusion. -/
theorem load_metastore_engine_corrupt_cex :
    load_metastore_engine [⟨"tbad", Sidecar.corrupt, []⟩] = .error "json.JSONDecodeError" := by
  decide

/-- C6 (corrected). The write-time encoding and `hive_query_engine.py`'s
filtered-read encoding agree, and for a `*_month` column any value and
its two-digit zero-padded string form encode to the same path segment
(in particular `1` and `"01"`), so an unpadded month filter locates the
padded partition through that engine. `hive_analytics.py`'s filtered
read, also cited by the claim, applies no padding, so the same lookup
misses there (see the counterexample). -/
theorem month_padding_agree (c : String) (v : PValue) (h : monthCol c = true) :
    encSegW c v = encSegE c v ∧
    encSegW c (.vStr (zfill 2 (pstr v))) = encSegW c v ∧
    encSegE c (.vInt 1) = encSegE c (.vStr "01") := by
  refine ⟨rfl, ?_, ?_⟩
  · unfold encSegW encValW
    rw [if_pos h, if_pos h]
    show c.data ++ '=' :: (zfill 2 (zfill 2 (pstr v))).data
      = c.data ++ '=' :: (zfill 2 (pstr v)).data
    rw [zfill_of_le 2 _ (zfill_two_length (pstr v))]
  · unfold encSegE
    rw [if_pos h, if_pos h]
    have hv : zfill 2 (pstr (PValue.vInt 1)) = zfill 2 (pstr (PValue.vStr "01")) := by decide
    rw [hv]

/-- Witness for the month-padding theorem at `order_month`. -/
theorem month_padding_agree_witness :
    monthCol "order_month" = true ∧
    (encSegW "order_month" (PValue.vInt 1) = encSegE "order_month" (PValue.vInt 1) ∧
      encSegW "order_month" (PValue.vStr (zfill 2 (pstr (PValue.vInt 1))))
        = encSegW "order_month" (PValue.vInt 1) ∧
      encSegE "order_month" (PValue.vInt 1) = encSegE "order_month" (PValue.vStr "01")) :=
  ⟨by decide, month_padding_agree "order_month" (PValue.vInt 1) (by decide)⟩

/-- C6 counterexample. The written partition for month `1` sits at the
padded segment `order_month=01`; a filtered read through
`hive_analytics.py` with the unpadded value `1` builds `order_month=1`
and finds nothing, while the engine reader pads and does locate it. -/
theorem month_padding_analytics_cex :
    writeTable exP [exRow 2018 1 9]
      = [{ path := ["order_year=2018".data, "order_month=01".data],
           rows := [[("order_id", PValue.vInt 9), ("Sales", PValue.vInt 90)]] }] ∧
    read_table_analytics exW1 exMS "fact_sales"
        (some [("order_year", PValue.vInt 2018), ("order_month", PValue.vInt 1)]) = .ok [] ∧
    read_table_engine exW1 exMS "fact_sales"
        (some [("order_year", PValue.vInt 2018), ("order_month", PValue.vInt 1)])
      = .ok [[("order_id", PValue.vInt 9), ("Sales", PValue.vInt 90),
              ("order_year", PValue.vInt 2018), ("order_month", PValue.vInt 1)]] :=
  ⟨by decide, by decide, by decide⟩

/-- C7 (corrected). The writer validates nothing: for any value —
including one whose string form contains `=` — the write succeeds and
produces a data file whose path segment embeds the raw string; there is
no `InvalidPartitionValue` rejection anywhere in the code. The
first-`=` split of the readers still recovers the full value string from
such a segment. (Path segments are modelled as atomic, so a value
containing the path separator is outside this model's scope; the code
does not validate it either.) -/
theorem writer_no_validation (v : PValue) :
    writeTable ["region"] [[("region", v)]]
      = [{ path := [encSegW "region" v], rows := [[]] }] ∧
    decodeSeg (encSegW "region" v) = some ("region", pstr v) := by
  constructor
  · have hproj : projRow ["region"] [("region", v)] = [v] := by
      unfold projRow
      rw [List.map_cons, List.map_nil, alookup_head]
      rfl
    unfold writeTable combosOf
    rw [List.map_cons, List.map_nil, hproj]
    unfold dedupFirst dedupFirst
    rw [List.filter_nil, List.map_cons, List.map_nil]
    rw [List.filter_cons, List.filter_nil, if_pos (by rw [hproj]; simp)]
    rw [List.map_cons, List.map_nil]
    have hstrip : stripCols ["region"] [("region", v)] = [] := by
      unfold stripCols
      rw [List.filter_cons, if_neg (by simp), List.filter_nil]
    rw [hstrip]
    unfold pathOfCombo
    rfl
  · unfold encSegW
    rw [decodeSeg_enc "region" _ (by decide), string_mk_data]
    unfold encValW
    rw [if_neg (by decide)]

/-- C7 counterexample. A `region` value containing `=` is written
without any error: the writer creates the data file at the raw
`region=A=B` segment instead of rejecting the value before file
creation, as the claim requires. -/
theorem writer_accepts_equals_cex :
    writeTable ["region"] [[("region", PValue.vStr "A=B"), ("x", PValue.vInt 1)]]
      = [{ path := ["region=A=B".data], rows := [[("x", PValue.vInt 1)]] }] := by
  decide

/-- C8 (confirmed). For a table present in the cached metastore, a
filtered read whose pattern matches no data file of that table returns
the empty dataframe and raises nothing — including the empty filter map,
which takes the read-all branch and finds no files. -/
theorem read_no_match_returns_empty (w : List TableDir) (ms : List (String × Metadata))
    (tn : String) (m : Metadata) (F : Row)
    (hm : alookup tn ms = some m)
    (hno : ∀ f ∈ tableFiles w tn,
      ¬ ((F.map (fun p => encSegE p.1 p.2)).isPrefixOf f.path = true)) :
    read_table_engine w ms tn (some F) = .ok [] := by
  simp only [read_table_engine, hm]
  by_cases hF : F.isEmpty
  · have hfiles : tableFiles w tn = [] := by
      rw [List.eq_nil_iff_forall_not_mem]
      intro f hf
      apply hno f hf
      rw [List.isEmpty_iff.mp hF]
      simp [List.isPrefixOf]
    rw [if_pos hF, if_pos (by rw [hfiles]; rfl)]
  · rw [if_neg hF]
    have hmt : (tableFiles w tn).filter
        (fun f => (F.map (fun p => encSegE p.1 p.2)).isPrefixOf f.path) = [] :=
      List.filter_eq_nil_iff.mpr hno
    rw [if_pos (by rw [hmt]; rfl)]

/-- Witness for the empty-partition theorem: a year with no data. -/
theorem read_no_match_returns_empty_witness :
    alookup "fact_sales" exMS = some exM ∧
    (∀ f ∈ tableFiles exW "fact_sales",
      ¬ ((([("order_year", PValue.vInt 1999)] : Row).map
          (fun p => encSegE p.1 p.2)).isPrefixOf f.path = true)) ∧
    read_table_engine exW exMS "fact_sales" (some [("order_year", PValue.vInt 1999)]) = .ok [] :=
  ⟨by decide, by decide,
    read_no_match_returns_empty exW exMS "fact_sales" exM _ (by decide) (by decide)⟩

/-- C9 (corrected). `show_tables` reads only the cached metastore — its
output is unchanged under any change to the data directories. But
`show_partitions` is not purely filesystem-backed: it first checks the
queried name against the cached metastore, so its output is invariant
under metastore changes only when they preserve the presence of that
name (see the counterexample for the presence-changing case). Under an
unchanged metastore entry, deleting partition directories changes only
`show_partitions`, never `show_tables`. -/
theorem show_commands_source_split :
    (∀ s₁ s₂ : WH, s₁.metastore = s₂.metastore → show_tables s₁ = show_tables s₂) ∧
    (∀ (s₁ s₂ : WH) (tn : String), s₁.tables = s₂.tables →
      (alookup tn s₁.metastore).isSome = (alookup tn s₂.metastore).isSome →
      show_partitions s₁ tn = show_partitions s₂ tn) := by
  constructor
  · intro s₁ s₂ h
    unfold show_tables
    rw [h]
  · intro s₁ s₂ tn ht hm
    unfold show_partitions
    rw [ht]
    have hn : (alookup tn s₁.metastore).isNone = (alookup tn s₂.metastore).isNone := by
      cases h1 : alookup tn s₁.metastore <;> cases h2 : alookup tn s₂.metastore <;>
        simp_all
    rw [hn]

/-- Witness for the inspection-source theorem: deleting every data
directory leaves `show_tables` unchanged, and adding an unrelated
metastore entry leaves `show_partitions` unchanged. -/
theorem show_commands_source_split_witness :
    show_tables ⟨exW, exMS⟩ = show_tables ⟨[], exMS⟩ ∧
    show_partitions ⟨exW, exMS⟩ "fact_sales"
      = show_partitions ⟨exW, [("fact_sales", exM), ("extra", exM)]⟩ "fact_sales" :=
  ⟨show_commands_source_split.1 ⟨exW, exMS⟩ ⟨[], exMS⟩ rfl,
    show_commands_source_split.2 ⟨exW, exMS⟩ ⟨exW, [("fact_sales", exM), ("extra", exM)]⟩
      "fact_sales" rfl (by decide)⟩

/-- C9 counterexample. `show_partitions` output is not invariant under
arbitrary metastore changes: with identical on-disk state, dropping the
table's cached entry flips the output from the partition listing to the
"Table not found" early return, because `show_partitions` consults the
metastore before scanning the filesystem. -/
theorem show_partitions_metastore_cex :
    (WH.mk exW exMS).tables = (WH.mk exW []).tables ∧
    show_partitions ⟨exW, exMS⟩ "fact_sales" ≠ show_partitions ⟨exW, []⟩ "fact_sales" :=
  ⟨rfl, by decide⟩

/-- The filter-collection loop of `query` leaves any accumulator intact
when no condition contains `=`. -/
theorem collect_foldl_no_eq : ∀ (conds : List (List Char)) (fs : Row),
    (∀ c ∈ conds, '=' ∉ c) →
    conds.foldl (fun acc cond => match acc with
      | .error e => .error e
      | .ok fs => parseCond fs cond) (Except.ok fs) = .ok fs
  | [], fs, _ => rfl
  | c :: cs, fs, h => by
    rw [List.foldl_cons]
    have hpc : parseCond fs c = .ok fs := by
      unfold parseCond
      rw [if_neg (h c (List.mem_cons_self c cs))]
    show cs.foldl _ (parseCond fs c) = Except.ok fs
    rw [hpc]
    exact collect_foldl_no_eq cs fs (fun x hx => h x (List.mem_cons_of_mem c hx))

/-- C10 (confirmed). A query with `FROM`, a table name present in the
metastore, and a WHERE clause none of whose conditions contains `=`
collects an empty filter dict, falls back to `read_table(table, None)`,
and returns every row of the table — the unsupported predicate is
silently ignored, with no error and no empty result. -/
theorem query_nonequality_full_scan (w : List TableDir) (ms : List (String × Metadata))
    (sql : List Char) (t : List Char) (rest : List (List Char)) (m : Metadata)
    (hfrom : "FROM".data ∈ queryParts sql)
    (ht : (queryParts sql).drop (idxOf "FROM".data (queryParts sql) + 1) = t :: rest)
    (hw : "WHERE".data ∈ queryParts sql)
    (hnoeq : ∀ cond ∈ condsOf sql, '=' ∉ cond)
    (hms : alookup ⟨t⟩ ms = some m) :
    query_engine w ms sql = .ok (full_read_engine (tableFiles w ⟨t⟩)) := by
  unfold query_engine
  rw [if_pos hfrom, ht]
  show (match (if "WHERE".data ∈ queryParts sql then collectFilters (condsOf sql)
      else Except.ok []) with
    | .error e => Except.error e
    | .ok fs => read_table_engine w ms ⟨t⟩ (if fs.isEmpty then none else some fs))
    = Except.ok (full_read_engine (tableFiles w ⟨t⟩))
  rw [if_pos hw]
  have hcf : collectFilters (condsOf sql) = .ok [] :=
    collect_foldl_no_eq (condsOf sql) [] hnoeq
  rw [hcf]
  show read_table_engine w ms ⟨t⟩ (if ([] : Row).isEmpty then none else some []) = _
  have hnone : (if ([] : Row).isEmpty then none else some ([] : Row)) = none := rfl
  rw [hnone]
  simp only [read_table_engine, hms]
  by_cases hfe : (tableFiles w ⟨t⟩).isEmpty
  · rw [if_pos hfe, List.isEmpty_iff.mp hfe]
    rfl
  · rw [if_neg hfe]

/-- Witness for the query fallback theorem: a `>` predicate over the
spec §8 table is ignored and all five rows come back. -/
theorem query_nonequality_full_scan_witness :
    ("FROM".data ∈ queryParts "SELECT * FROM fact_sales WHERE Sales > 100".data) ∧
    ((queryParts "SELECT * FROM fact_sales WHERE Sales > 100".data).drop
        (idxOf "FROM".data (queryParts "SELECT * FROM fact_sales WHERE Sales > 100".data) + 1)
      = "fact_sales".data :: ["WHERE".data, "Sales".data, ">".data, "100".data]) ∧
    ("WHERE".data ∈ queryParts "SELECT * FROM fact_sales WHERE Sales > 100".data) ∧
    (∀ cond ∈ condsOf "SELECT * FROM fact_sales WHERE Sales > 100".data, '=' ∉ cond) ∧
    query_engine exW exMS "SELECT * FROM fact_sales WHERE Sales > 100".data
      = .ok (full_read_engine (tableFiles exW ⟨"fact_sales".data⟩)) :=
  ⟨by decide, by decide, by decide, by decide,
    query_nonequality_full_scan exW exMS "SELECT * FROM fact_sales WHERE Sales > 100".data
      "fact_sales".data ["WHERE".data, "Sales".data, ">".data, "100".data] exM
      (by decide) (by decide) (by decide) (by decide) (by decide)⟩

end RetailIQ
